import Mathlib

/-!
The go-yaml-edit driver (`package yamled`, `edit.go`): a shallow embedding

The Go source is embedded as pure Lean functions.

* Go `int` values (rune offsets, indent counts, line numbers) are `Int`.  The
  only arithmetic that can leave the 64-bit range is `n.IndexEnd - d` in `Node`,
  which is wrapped explicitly (`wrapInt64`); the counters of the index scan are
  bounded by `len(src)`.
* A `[]byte` is a `List Nat` (each element a byte value); the slice `src[i:]` of
  the scan is the remaining suffix of the list.
* A Go `error` is `Option String` (`none` is `nil`); a function returning
  `(string, error)` returns a pair.
* `t.indents[line]` with `line` out of range is a run-time panic, modelled by
  the `Outcome.panic` result.
* The splice engine (`splice.Transformer`) and the quoting policy (`quote`) are
  parameters: the code only calls them.
-/

namespace Yamled

/-! ## gopkg.in/yaml.v3: the node fields `Node` reads -/

/-- Style flag `yaml.TaggedStyle` (`1 << iota`, iota = 0). -/
def TaggedStyle : Nat := 1
/-- Style flag `yaml.DoubleQuotedStyle`. -/
def DoubleQuotedStyle : Nat := 2
/-- Style flag `yaml.SingleQuotedStyle`. -/
def SingleQuotedStyle : Nat := 4
/-- Style flag `yaml.LiteralStyle`. -/
def LiteralStyle : Nat := 8
/-- Style flag `yaml.FoldedStyle`. -/
def FoldedStyle : Nat := 16
/-- Style flag `yaml.FlowStyle`. -/
def FlowStyle : Nat := 32

/-- The fields of `yaml.Node` used by `Node`: the style bit set and the rune
offsets of the node in the source. -/
structure YamlNode where
  Style : Nat
  Index : Int
  IndexEnd : Int
deriving DecidableEq, Repr

/-- Range of a Go `int` on a 64-bit platform. -/
def isInt64 (x : Int) : Prop := -(2 : Int) ^ 63 ≤ x ∧ x < (2 : Int) ^ 63

instance (x : Int) : Decidable (isInt64 x) := by
  unfold isInt64; infer_instance

/-- Two's-complement wrap-around of a Go `int` result. -/
def wrapInt64 (x : Int) : Int := (x + (2 : Int) ^ 63) % (2 : Int) ^ 64 - (2 : Int) ^ 63

/-! ## splice: selections and operations -/

/-- The type `splice.Selection`: a span of rune offsets. -/
structure Selection where
  Start : Int
  End : Int
deriving DecidableEq, Repr

/-- The constructor `splice.Span(start, end)`. -/
def Span (start stop : Int) : Selection := ⟨start, stop⟩

/-- A Go `error` value; `none` is `nil`. -/
abbrev GoError := Option String

/-- The type `splice.Op`: a selection and the function producing its replacement. -/
structure Op where
  Start : Int
  End : Int
  Replace : String → String × GoError

/-! ## `Node` -/

/-- `Node` returns a selection that spans over a YAML node (`edit.go`, lines 15-24). -/
def Node (n : YamlNode) : Selection :=
  let d : Int := if n.Style &&& (LiteralStyle ||| FoldedStyle) ≠ 0 then 1 else 0
  Span n.Index (wrapInt64 (n.IndexEnd - d))

/-! ## unicode/utf8: `DecodeRune` -/

/-- The constant `utf8.RuneError`. -/
def RuneError : Int := 0xFFFD

/-- The table `first` of `unicode/utf8`: information about the first byte of a
UTF-8 sequence (`as` = 0xF0 for ASCII, `xx` = 0xF1 for invalid, otherwise the
accept-range number in the high nibble and the size in the low three bits). -/
def first (b : Nat) : Nat :=
  if b < 0x80 then 0xF0
  else if b < 0xC2 then 0xF1
  else if b < 0xE0 then 0x02
  else if b = 0xE0 then 0x13
  else if b < 0xED then 0x03
  else if b = 0xED then 0x23
  else if b < 0xF0 then 0x03
  else if b = 0xF0 then 0x34
  else if b < 0xF4 then 0x04
  else if b = 0xF4 then 0x44
  else 0xF1

/-- The table `acceptRanges` of `unicode/utf8`: the `(lo, hi)` range allowed for
the second byte. -/
def acceptRanges (k : Nat) : Nat × Nat :=
  match k with
  | 0 => (0x80, 0xBF)
  | 1 => (0xA0, 0xBF)
  | 2 => (0x80, 0x9F)
  | 3 => (0x90, 0xBF)
  | 4 => (0x80, 0x8F)
  | _ => (0, 0)

/-- The function `utf8.DecodeRune(p)`: the first rune of `p` and its width in bytes;
`(RuneError, 0)` for empty input and `(RuneError, 1)` for an invalid encoding. -/
def DecodeRune (p : List Nat) : Int × Nat :=
  match p with
  | [] => (RuneError, 0)
  | p0 :: _ =>
    let x := first p0
    if x ≥ 0xF0 then
      (if x = 0xF0 then (p0 : Int) else RuneError, 1)
    else
      let sz := x &&& 7
      let accept := acceptRanges (x >>> 4)
      if p.length < sz then (RuneError, 1)
      else
        let b1 := p.getD 1 0
        if b1 < accept.1 ∨ accept.2 < b1 then (RuneError, 1)
        else if sz ≤ 2 then
          ((((p0 &&& 0x1F) <<< 6 ||| (b1 &&& 0x3F) : Nat) : Int), 2)
        else
          let b2 := p.getD 2 0
          if b2 < 0x80 ∨ 0xBF < b2 then (RuneError, 1)
          else if sz ≤ 3 then
            ((((p0 &&& 0x0F) <<< 12 ||| (b1 &&& 0x3F) <<< 6 ||| (b2 &&& 0x3F) : Nat) : Int), 3)
          else
            let b3 := p.getD 3 0
            if b3 < 0x80 ∨ 0xBF < b3 then (RuneError, 1)
            else
              ((((p0 &&& 0x07) <<< 18 ||| (b1 &&& 0x3F) <<< 12 ||| (b2 &&& 0x3F) <<< 6
                  ||| (b3 &&& 0x3F) : Nat) : Int), 4)

/-! ## The transformer -/

/-- The splice engine `*splice.Transformer` as the driver sees it: a state and
its two methods.  `Transform` returns the new engine state, the new contents of
`dst` and the triple `(nDst, nSrc, err)`. -/
structure Engine (σ : Type) where
  Transform : σ → List Nat → List Nat → Bool → σ × List Nat × Int × Int × GoError
  Reset : σ → σ

/-- The struct `Transformer` (`edit.go`, lines 55-60).  A `nil` slice is the empty
list: `append` never leaves a non-nil empty slice here. -/
structure Transformer (σ : Type) where
  t : σ
  linesDone : Bool
  indents : List Int
  lineStarts : List Int

/-- The zero value `&Transformer{}` around an engine state, as `T` builds it. -/
def Transformer.fresh {σ : Type} (e : σ) : Transformer σ := ⟨e, false, [], []⟩

/-- The error `transform.ErrShortSrc`. -/
def ErrShortSrc : GoError := some "transform: short source buffer"

/-- Inner loop of the scan (`edit.go`, lines 88-91):
`for ; i < len(src) && src[i] == ' '; i++ { j++; rpos++ }`.
Takes `src[i:]`, `j` and `rpos`; returns them after the loop. -/
def spaceLoop : List Nat → Int → Int → List Nat × Int × Int
  | [], j, rpos => ([], j, rpos)
  | b :: rest, j, rpos =>
    if b = 0x20 then spaceLoop rest (j + 1) (rpos + 1) else (b :: rest, j, rpos)

/-- Outer loop of the scan (`edit.go`, lines 81-94) on `src[i:]`, the rune
position and the two slices `(lineStarts, indents)`.  Every iteration consumes
at least one byte, so `fuel = len(src[i:])` iterations suffice. -/
def indexLoop : Nat → List Nat → Int → List Int × List Int → List Int × List Int
  | 0, _, _, ix => ix
  | fuel + 1, rest, rpos, ix =>
    if rest = [] then ix
    else
      let rs := DecodeRune rest
      let rest1 := rest.drop rs.2
      let rpos1 := rpos + 1
      if ix.2 = [] ∨ rs.1 = 10 then
        let lineStarts := ix.1 ++ [rpos1]
        let sp := spaceLoop rest1 0 rpos1
        indexLoop fuel sp.1 sp.2.2 (lineStarts, ix.2 ++ [sp.2.1])
      else
        indexLoop fuel rest1 rpos1 ix

/-- The method `(*Transformer).Transform` (`edit.go`, lines 63-98).  Returns the
transformer after the call, the contents of `dst`, and `(nDst, nSrc, err)`. -/
def Transformer.Transform {σ : Type} (eng : Engine σ) (t : Transformer σ)
    (dst src : List Nat) (atEOF : Bool) : Transformer σ × List Nat × Int × Int × GoError :=
  if !atEOF then (t, dst, 0, 0, ErrShortSrc)
  else
    let t1 : Transformer σ :=
      if !t.linesDone then
        let ix := indexLoop src.length src 0 (t.lineStarts, t.indents)
        ⟨t.t, true, ix.2, ix.1⟩
      else t
    let r := eng.Transform t1.t dst src atEOF
    (⟨r.1, t1.linesDone, t1.indents, t1.lineStarts⟩, r.2)

/-- The method `(*Transformer).Reset` (`edit.go`, lines 100-104). -/
def Transformer.Reset {σ : Type} (eng : Engine σ) (t : Transformer σ) : Transformer σ :=
  ⟨eng.Reset t.t, t.linesDone, [], t.lineStarts⟩

/-! ## sort: `SearchInts` -/

/-- Loop of `sort.Search(n, f)`: binary search on `[i, j)`, with
`h := int(uint(i+j) >> 1)`. -/
def searchLoop (f : Nat → Bool) : Nat → Nat → Nat → Nat
  | 0, i, _ => i
  | fuel + 1, i, j =>
    if i < j then
      let h := (i + j) >>> 1
      if !f h then searchLoop f fuel (h + 1) j else searchLoop f fuel i h
    else i

/-- The function `sort.Search(n, f)`: the interval halves at every step, so `n`
iterations suffice. -/
def Search (n : Nat) (f : Nat → Bool) : Nat := searchLoop f n 0 n

/-- The function `sort.SearchInts(a, x)`:
`Search(len(a), func(i int) bool { return a[i] >= x })`. -/
def SearchInts (a : List Int) (x : Int) : Nat :=
  Search a.length (fun i => decide (a.getD i 0 ≥ x))

/-! ## `quotedOp` and `T` -/

/-- Result of calling a wrapped `Replace`: it returns `(text, err)`, or the
slice index `t.indents[line]` is out of range and the call panics. -/
inductive Outcome where
  | ret (text : String) (err : GoError)
  | panic
deriving DecidableEq, Repr

/-- The line computed at `edit.go` line 47:
`sort.SearchInts(t.lineStarts, op.Start) - 1`. -/
def lookupLine (lineStarts : List Int) (start : Int) : Int :=
  (SearchInts lineStarts start : Int) - 1

/-- The slice index `a[i]` of Go: `none` is the out-of-range panic. -/
def sliceIndex (a : List Int) (i : Int) : Option Int :=
  if 0 ≤ i then a.get? i.toNat else none

/-- The closure assigned to `o.Replace` in `quotedOp` (`edit.go`, lines 41-49).
It reads the transformer through the captured pointer when it is called, so
the slices at call time are arguments. -/
def quotedReplace (quote : String → String → Int → String × GoError) (op : Op)
    (lineStarts indents : List Int) (prev : String) : Outcome :=
  let r := op.Replace prev
  match r.2 with
  | some e => Outcome.ret "" (some e)
  | none =>
    let line := lookupLine lineStarts op.Start
    match sliceIndex indents line with
    | none => Outcome.panic
    | some d =>
      let q := quote r.1 prev d
      Outcome.ret q.1 q.2

/-- A wrapped operation: the selection of the original and the new `Replace`,
which depends on the transformer's slices at call time. -/
structure QuotedOp where
  Start : Int
  End : Int
  Replace : List Int → List Int → String → Outcome

/-- The function `quotedOp` (`edit.go`, lines 38-51). -/
def quotedOp (quote : String → String → Int → String × GoError) (op : Op) : QuotedOp :=
  ⟨op.Start, op.End, quotedReplace quote op⟩

/-- The loop of `T` (`edit.go`, lines 29-32): the operations handed to `splice.T`. -/
def T_qops (quote : String → String → Int → String × GoError) (ops : List Op) : List QuotedOp :=
  ops.map (quotedOp quote)

/-- The function `T` (`edit.go`, lines 26-35): a zero-value transformer whose
engine is `splice.T` of the wrapped operations.  `spliceT` stands for `splice.T`. -/
def T {σ : Type} (spliceT : List QuotedOp → σ)
    (quote : String → String → Int → String × GoError) (ops : List Op) : Transformer σ :=
  ⟨spliceT (T_qops quote ops), false, [], []⟩

/-! ## Reference notions used to state the properties -/

/-- The runes of a buffer: `DecodeRune` applied repeatedly, as Go's
`for range string(src)` enumerates them. -/
def runesLoop : Nat → List Nat → List Int
  | 0, _ => []
  | fuel + 1, rest =>
    if rest = [] then []
    else
      let rs := DecodeRune rest
      rs.1 :: runesLoop fuel (rest.drop rs.2)

/-- The rune sequence of `src`; the rune offset of a character is its position
in this list. -/
def runes (src : List Nat) : List Int := runesLoop src.length src

/-- Number of consecutive space runes at the start of a rune sequence. -/
def leadingSpaces (rs : List Int) : Int := ((rs.takeWhile (fun r => decide (r = 0x20))).length : Int)

/-- A splice engine without operations, used to run the driver on concrete
buffers: it copies `src` to `dst` and reports every byte written and read. -/
def copyEngine : Engine Unit :=
  ⟨fun _ _ src _ => ((), src, (src.length : Int), (src.length : Int), none), fun _ => ()⟩

/-- The index `(lineStarts, indents)` that the first `Transform(atEOF=true)` of a
fresh transformer (around engine state `e`) leaves for `src`. -/
def builtIndex {σ : Type} (eng : Engine σ) (e : σ) (dst src : List Nat) : List Int × List Int :=
  let r := Transformer.Transform eng (Transformer.fresh e) dst src true
  (r.1.lineStarts, r.1.indents)

/-- Modelled from the spec: the splice engine (package `splice`, not among the
sources) rewrites a byte stream "by copying unedited regions verbatim and
substituting each op's produced replacement for its original span".  For an
engine built from no operations the whole buffer is unedited, so its
`Transform` at end of input writes `src` to `dst`, reports `len(src)` bytes
written and read, and no error. -/
def CopiesVerbatim {σ : Type} (eng : Engine σ) (e : σ) (dst src : List Nat) : Prop :=
  (eng.Transform e dst src true).2.1.take (eng.Transform e dst src true).2.2.1.toNat = src ∧
    (eng.Transform e dst src true).2.2.1 = (src.length : Int) ∧
    (eng.Transform e dst src true).2.2.2.1 = (src.length : Int) ∧
    (eng.Transform e dst src true).2.2.2.2 = none

instance {σ : Type} (eng : Engine σ) (e : σ) (dst src : List Nat) :
    Decidable (CopiesVerbatim eng e dst src) := by
  unfold CopiesVerbatim; infer_instance

/-- Whether the bytes at the head of a list lie, one by one, in the given
`(lo, hi)` ranges. -/
def matchesRanges : List (Nat × Nat) → List Nat → Bool
  | [], _ => true
  | _ :: _, [] => false
  | r :: rs, b :: tl => decide (r.1 ≤ b) && decide (b ≤ r.2) && matchesRanges rs tl

/-- Width of the well-formed UTF-8 byte sequence at the head of a buffer
(Unicode Standard, table 3-7 "Well-Formed UTF-8 Byte Sequences"), or 0 when the
buffer does not start with one: the byte there is invalid. -/
def wellFormedWidth : List Nat → Nat
  | [] => 0
  | b :: tl =>
    if b ≤ 0x7F then 1
    else if 0xC2 ≤ b ∧ b ≤ 0xDF ∧ matchesRanges [(0x80, 0xBF)] tl = true then 2
    else if b = 0xE0 ∧ matchesRanges [(0xA0, 0xBF), (0x80, 0xBF)] tl = true then 3
    else if 0xE1 ≤ b ∧ b ≤ 0xEC ∧ matchesRanges [(0x80, 0xBF), (0x80, 0xBF)] tl = true then 3
    else if b = 0xED ∧ matchesRanges [(0x80, 0x9F), (0x80, 0xBF)] tl = true then 3
    else if 0xEE ≤ b ∧ b ≤ 0xEF ∧ matchesRanges [(0x80, 0xBF), (0x80, 0xBF)] tl = true then 3
    else if b = 0xF0 ∧ matchesRanges [(0x90, 0xBF), (0x80, 0xBF), (0x80, 0xBF)] tl = true then 4
    else if 0xF1 ≤ b ∧ b ≤ 0xF3 ∧
        matchesRanges [(0x80, 0xBF), (0x80, 0xBF), (0x80, 0xBF)] tl = true then 4
    else if b = 0xF4 ∧ matchesRanges [(0x80, 0x8F), (0x80, 0xBF), (0x80, 0xBF)] tl = true then 4
    else 0

/-! # Theorems -/

/-! ## `Node` -/

/-- The mask test of `Node` is the test of the two block-style flags: bit 3
(`LiteralStyle`) or bit 4 (`FoldedStyle`). -/
theorem blockMask_ne_zero_iff (s : Nat) :
    s &&& (LiteralStyle ||| FoldedStyle) ≠ 0 ↔ (s.testBit 3 = true ∨ s.testBit 4 = true) := by
  have h24 : LiteralStyle ||| FoldedStyle = 2 ^ 3 ||| 2 ^ 4 := by decide
  rw [h24]
  constructor
  · intro h
    by_contra hc
    push_neg at hc
    apply h
    apply Nat.eq_of_testBit_eq
    intro i
    simp only [Nat.testBit_and, Nat.testBit_or, Nat.testBit_two_pow, Nat.zero_testBit]
    by_cases h3 : 3 = i
    · subst h3; simp [hc.1]
    · by_cases h4 : 4 = i
      · subst h4; simp [hc.2]
      · simp [h3, h4]
  · intro h hz
    have h3 := congrArg (fun x => Nat.testBit x 3) hz
    have h4 := congrArg (fun x => Nat.testBit x 4) hz
    simp only [Nat.testBit_and, Nat.testBit_or, Nat.testBit_two_pow, Nat.zero_testBit] at h3 h4
    simp at h3 h4
    rcases h with h | h
    · simp [h] at h3
    · simp [h] at h4

/-- A value in the 64-bit range is not changed by the wrap-around. -/
theorem wrapInt64_of_isInt64 (x : Int) (h : isInt64 x) : wrapInt64 x = x := by
  unfold isInt64 at h
  unfold wrapInt64
  norm_num at h ⊢
  omega

/-- C1: for a parsed node `n` (its end offset a non-negative Go `int`), `Node n`
starts at `n.Index` and ends at `n.IndexEnd - d`, where `d = 1` when the style has
the literal-block flag (bit 3) or the folded-block flag (bit 4) set and `d = 0`
otherwise. -/
theorem Node_selection (n : YamlNode) (hR : isInt64 n.IndexEnd) (h0 : 0 ≤ n.IndexEnd) :
    (Node n).Start = n.Index ∧
    (Node n).End =
      n.IndexEnd - (if n.Style.testBit 3 = true ∨ n.Style.testBit 4 = true then 1 else 0) := by
  have hd : wrapInt64 (n.IndexEnd - (if n.Style &&& (LiteralStyle ||| FoldedStyle) ≠ 0 then 1 else 0))
      = n.IndexEnd - (if n.Style &&& (LiteralStyle ||| FoldedStyle) ≠ 0 then 1 else 0) := by
    apply wrapInt64_of_isInt64
    unfold isInt64 at hR ⊢
    norm_num at hR ⊢
    split <;> omega
  refine ⟨rfl, ?_⟩
  show wrapInt64 _ = _
  rw [hd]
  by_cases hb : n.Style.testBit 3 = true ∨ n.Style.testBit 4 = true
  · rw [if_pos hb, if_pos ((blockMask_ne_zero_iff n.Style).2 hb)]
  · rw [if_neg hb, if_neg (fun h => hb ((blockMask_ne_zero_iff n.Style).1 h))]

/-- Witness of C1: a literal-block node spanning `[4, 9)` maps to `[4, 8)`. -/
theorem Node_selection_witness :
    isInt64 (9 : Int) ∧ (0 : Int) ≤ 9 ∧
      ((Node ⟨LiteralStyle, 4, 9⟩).Start = 4 ∧
        (Node ⟨LiteralStyle, 4, 9⟩).End =
          9 - (if LiteralStyle.testBit 3 = true ∨ LiteralStyle.testBit 4 = true then 1 else 0)) :=
  ⟨by decide, by decide, Node_selection ⟨LiteralStyle, 4, 9⟩ (by decide) (by decide)⟩

/-! ## `utf8.DecodeRune` -/

theorem or_lt_two_pow_left {x y n : Nat} (h : x ||| y < 2 ^ n) : x < 2 ^ n := by
  apply Nat.lt_pow_two_of_testBit
  intro i hi
  have h1 : (x ||| y).testBit i = false :=
    Nat.testBit_lt_two_pow (Nat.lt_of_lt_of_le h (Nat.pow_le_pow_right (by decide) hi))
  rw [Nat.testBit_or] at h1
  cases hx : x.testBit i
  · rfl
  · rw [hx] at h1; simp at h1

theorem or_lt_two_pow_right {x y n : Nat} (h : x ||| y < 2 ^ n) : y < 2 ^ n := by
  rw [Nat.lor_comm] at h
  exact or_lt_two_pow_left h

/-- Unfolding of `DecodeRune` on a first byte that starts a multi-byte sequence. -/
theorem DecodeRune_multi (b : Nat) (tl : List Nat) (hx : first b < 0xF0) :
    DecodeRune (b :: tl) =
      if tl.length + 1 < first b &&& 7 then (RuneError, 1)
      else if tl.getD 0 0 < (acceptRanges (first b >>> 4)).1 ∨
          (acceptRanges (first b >>> 4)).2 < tl.getD 0 0 then (RuneError, 1)
      else if first b &&& 7 ≤ 2 then
        ((((b &&& 0x1F) <<< 6 ||| (tl.getD 0 0 &&& 0x3F) : Nat) : Int), 2)
      else if tl.getD 1 0 < 0x80 ∨ 0xBF < tl.getD 1 0 then (RuneError, 1)
      else if first b &&& 7 ≤ 3 then
        ((((b &&& 0x0F) <<< 12 ||| (tl.getD 0 0 &&& 0x3F) <<< 6 ||| (tl.getD 1 0 &&& 0x3F) : Nat) : Int), 3)
      else if tl.getD 2 0 < 0x80 ∨ 0xBF < tl.getD 2 0 then (RuneError, 1)
      else
        ((((b &&& 0x07) <<< 18 ||| (tl.getD 0 0 &&& 0x3F) <<< 12 ||| (tl.getD 1 0 &&& 0x3F) <<< 6
            ||| (tl.getD 2 0 &&& 0x3F) : Nat) : Int), 4) := by
  have h1 : ¬ (first b ≥ 0xF0) := by omega
  simp only [DecodeRune, if_neg h1, List.length_cons]
  rfl


theorem first_cases (b : Nat) :
    (b < 128 ∧ first b = 240) ∨ (128 ≤ b ∧ first b = 241) ∨
    (194 ≤ b ∧ b < 224 ∧ first b = 2) ∨ (b = 224 ∧ first b = 19) ∨
    (225 ≤ b ∧ b < 240 ∧ first b = 3) ∨ (b = 237 ∧ first b = 35) ∨
    (b = 240 ∧ first b = 52) ∨ (241 ≤ b ∧ b < 244 ∧ first b = 4) ∨
    (b = 244 ∧ first b = 68) := by
  unfold first
  by_cases h1 : b < 0x80
  · left; rw [if_pos h1]; exact ⟨h1, rfl⟩
  rw [if_neg h1]
  by_cases h2 : b < 0xC2
  · right; left; rw [if_pos h2]; exact ⟨by omega, rfl⟩
  rw [if_neg h2]
  by_cases h3 : b < 0xE0
  · right; right; left; rw [if_pos h3]; exact ⟨by omega, h3, rfl⟩
  rw [if_neg h3]
  by_cases h4 : b = 0xE0
  · right; right; right; left; rw [if_pos h4]; exact ⟨h4, rfl⟩
  rw [if_neg h4]
  by_cases h5 : b < 0xED
  · right; right; right; right; left; rw [if_pos h5]; exact ⟨by omega, by omega, rfl⟩
  rw [if_neg h5]
  by_cases h6 : b = 0xED
  · right; right; right; right; right; left; rw [if_pos h6]; exact ⟨h6, rfl⟩
  rw [if_neg h6]
  by_cases h7 : b < 0xF0
  · right; right; right; right; left; rw [if_pos h7]; exact ⟨by omega, h7, rfl⟩
  rw [if_neg h7]
  by_cases h8 : b = 0xF0
  · right; right; right; right; right; right; left; rw [if_pos h8]; exact ⟨h8, rfl⟩
  rw [if_neg h8]
  by_cases h9 : b < 0xF4
  · right; right; right; right; right; right; right; left; rw [if_pos h9]
    exact ⟨by omega, h9, rfl⟩
  rw [if_neg h9]
  by_cases h10 : b = 0xF4
  · right; right; right; right; right; right; right; right; rw [if_pos h10]; exact ⟨h10, rfl⟩
  rw [if_neg h10]
  right; left; exact ⟨by omega, rfl⟩

theorem DecodeRune_ascii (b : Nat) (tl : List Nat) (h : b < 0x80) :
    DecodeRune (b :: tl) = ((b : Int), 1) := by
  have hf : first b = 0xF0 := by
    rcases first_cases b with h1 | h1 | h1 | h1 | h1 | h1 | h1 | h1 | h1 <;> omega
  simp [DecodeRune, hf]

theorem DecodeRune_invalid (b : Nat) (tl : List Nat) (hf : first b = 0xF1) :
    DecodeRune (b :: tl) = (RuneError, 1) := by
  simp [DecodeRune, hf]

/-- Size and rune bounds of a two-byte decode. -/
theorem DecodeRune_two (b : Nat) (tl : List Nat) (hb : 194 ≤ b ∧ b < 224) (hf : first b = 2) :
    (1 ≤ (DecodeRune (b :: tl)).2 ∧ (DecodeRune (b :: tl)).2 ≤ tl.length + 1) ∧
      128 ≤ (DecodeRune (b :: tl)).1 := by
  have a1 : (2 : Nat) &&& 7 = 2 := by decide
  have a2 : (2 : Nat) >>> 4 = 0 := by decide
  rw [DecodeRune_multi b tl (by omega), hf]
  simp only [a1, a2, acceptRanges]
  split_ifs <;> first
    | (exfalso; omega)
    | exact ⟨⟨by simp, by simp⟩, by decide⟩
    | skip
  refine ⟨⟨by simp, by simp; omega⟩, ?_⟩
  show (128 : Int) ≤ ((_ : Nat) : Int)
  apply Int.ofNat_le.2
  by_contra hc
  have h5 := or_lt_two_pow_left (show _ < 2 ^ 7 from Nat.lt_of_not_le hc)
  rw [Nat.shiftLeft_eq, show (31 : Nat) = 2 ^ 5 - 1 from rfl, Nat.and_pow_two_sub_one_eq_mod] at h5
  simp only [Nat.reducePow] at h5
  omega

/-- Size and rune bounds of a three-byte decode. -/
theorem DecodeRune_three (b : Nat) (tl : List Nat) (x k : Nat) (hf : first b = x)
    (hx : x < 0xF0) (h7 : x &&& 7 = 3) (hk : x >>> 4 = k)
    (hb : (b = 224 ∧ k = 1) ∨ 1 ≤ b % 16) :
    (1 ≤ (DecodeRune (b :: tl)).2 ∧ (DecodeRune (b :: tl)).2 ≤ tl.length + 1) ∧
      128 ≤ (DecodeRune (b :: tl)).1 := by
  rw [DecodeRune_multi b tl (by omega), hf]
  simp only [h7, hk]
  split_ifs with h1 h2 <;> first
    | (exfalso; omega)
    | exact ⟨⟨by simp, by simp⟩, by decide⟩
    | skip
  refine ⟨⟨by simp, by simp; omega⟩, ?_⟩
  show (128 : Int) ≤ ((_ : Nat) : Int)
  apply Int.ofNat_le.2
  by_contra hc
  have h6 := or_lt_two_pow_left (show _ < 2 ^ 7 from Nat.lt_of_not_le hc)
  have h8 := or_lt_two_pow_left h6
  have h9 := or_lt_two_pow_right h6
  rw [Nat.shiftLeft_eq, show (15 : Nat) = 2 ^ 4 - 1 from rfl, Nat.and_pow_two_sub_one_eq_mod] at h8
  rw [Nat.shiftLeft_eq, show (63 : Nat) = 2 ^ 6 - 1 from rfl, Nat.and_pow_two_sub_one_eq_mod] at h9
  simp only [Nat.reducePow] at h8 h9
  rcases hb with ⟨hb, hk1⟩ | hb
  · subst hk1
    simp only [acceptRanges] at h2
    omega
  · omega

/-- Size and rune bounds of a four-byte decode. -/
theorem DecodeRune_four (b : Nat) (tl : List Nat) (x k : Nat) (hf : first b = x)
    (hx : x < 0xF0) (h7 : x &&& 7 = 4) (hk : x >>> 4 = k)
    (hb : (b = 240 ∧ k = 3) ∨ 1 ≤ b % 8) :
    (1 ≤ (DecodeRune (b :: tl)).2 ∧ (DecodeRune (b :: tl)).2 ≤ tl.length + 1) ∧
      128 ≤ (DecodeRune (b :: tl)).1 := by
  rw [DecodeRune_multi b tl (by omega), hf]
  simp only [h7, hk]
  split_ifs with h1 h2 <;> first
    | (exfalso; omega)
    | exact ⟨⟨by simp, by simp⟩, by decide⟩
    | skip
  refine ⟨⟨by simp, by simp; omega⟩, ?_⟩
  show (128 : Int) ≤ ((_ : Nat) : Int)
  apply Int.ofNat_le.2
  by_contra hc
  have h6 := or_lt_two_pow_left (show _ < 2 ^ 7 from Nat.lt_of_not_le hc)
  have h7 := or_lt_two_pow_left h6
  have h8 := or_lt_two_pow_left h7
  have h9 := or_lt_two_pow_right h7
  rw [Nat.shiftLeft_eq, show (7 : Nat) = 2 ^ 3 - 1 from rfl, Nat.and_pow_two_sub_one_eq_mod] at h8
  rw [Nat.shiftLeft_eq, show (63 : Nat) = 2 ^ 6 - 1 from rfl, Nat.and_pow_two_sub_one_eq_mod] at h9
  simp only [Nat.reducePow] at h8 h9
  rcases hb with ⟨hb, hk1⟩ | hb
  · subst hk1
    simp only [acceptRanges] at h2
    omega
  · omega

/-- Width and value bounds of `DecodeRune` on non-empty input: it consumes between
one byte and the whole input, and a first byte of 0x80 or more never decodes
to an ASCII rune. -/
theorem DecodeRune_bounds (b : Nat) (tl : List Nat) :
    (1 ≤ (DecodeRune (b :: tl)).2 ∧ (DecodeRune (b :: tl)).2 ≤ tl.length + 1) ∧
      (128 ≤ b → 128 ≤ (DecodeRune (b :: tl)).1) := by
  rcases first_cases b with ⟨hb, hf⟩ | ⟨hb, hf⟩ | ⟨hb, hb2, hf⟩ | ⟨hb, hf⟩ | ⟨hb, hb2, hf⟩ |
      ⟨hb, hf⟩ | ⟨hb, hf⟩ | ⟨hb, hb2, hf⟩ | ⟨hb, hf⟩
  · rw [DecodeRune_ascii b tl hb]
    exact ⟨⟨by simp, by simp⟩, fun h => by omega⟩
  · rw [DecodeRune_invalid b tl hf]
    exact ⟨⟨by simp, by simp⟩, fun _ => by decide⟩
  · have h := DecodeRune_two b tl ⟨hb, hb2⟩ hf
    exact ⟨h.1, fun _ => h.2⟩
  · have h := DecodeRune_three b tl 19 1 hf (by decide) (by decide) (by decide) (Or.inl ⟨hb, rfl⟩)
    exact ⟨h.1, fun _ => h.2⟩
  · have h := DecodeRune_three b tl 3 0 hf (by decide) (by decide) (by decide) (Or.inr (by omega))
    exact ⟨h.1, fun _ => h.2⟩
  · have h := DecodeRune_three b tl 35 2 hf (by decide) (by decide) (by decide) (Or.inr (by omega))
    exact ⟨h.1, fun _ => h.2⟩
  · have h := DecodeRune_four b tl 52 3 hf (by decide) (by decide) (by decide) (Or.inl ⟨hb, rfl⟩)
    exact ⟨h.1, fun _ => h.2⟩
  · have h := DecodeRune_four b tl 4 0 hf (by decide) (by decide) (by decide) (Or.inr (by omega))
    exact ⟨h.1, fun _ => h.2⟩
  · have h := DecodeRune_four b tl 68 4 hf (by decide) (by decide) (by decide) (Or.inr (by omega))
    exact ⟨h.1, fun _ => h.2⟩

/-! ## The rune sequence of a buffer -/

/-- More fuel than bytes does not change the rune sequence. -/
theorem runesLoop_fuel (f1 f2 : Nat) (rest : List Nat) (h1 : rest.length ≤ f1)
    (h2 : rest.length ≤ f2) : runesLoop f1 rest = runesLoop f2 rest := by
  induction f1 generalizing f2 rest with
  | zero =>
    have : rest = [] := List.length_eq_zero.1 (by omega)
    subst this
    cases f2 <;> simp [runesLoop]
  | succ n ih =>
    cases rest with
    | nil => cases f2 <;> simp [runesLoop]
    | cons b tl =>
      cases f2 with
      | zero => simp at h2
      | succ m =>
        have hs := (DecodeRune_bounds b tl).1
        simp only [runesLoop, List.cons_ne_nil, if_false, reduceIte]
        congr 1
        apply ih
        · simp only [List.length_drop, List.length_cons] at h1 ⊢; omega
        · simp only [List.length_drop, List.length_cons] at h2 ⊢; omega

theorem runes_nil : runes [] = [] := rfl

/-- The rune sequence of a non-empty buffer: its first rune, then the runes of
what follows it. -/
theorem runes_cons (b : Nat) (tl : List Nat) :
    runes (b :: tl) =
      (DecodeRune (b :: tl)).1 :: runes ((b :: tl).drop (DecodeRune (b :: tl)).2) := by
  have hs := (DecodeRune_bounds b tl).1
  unfold runes
  simp only [List.length_cons, runesLoop, List.cons_ne_nil, if_false, reduceIte]
  congr 1
  apply runesLoop_fuel
  · simp only [List.length_drop, List.length_cons]; omega
  · exact le_refl _

/-- An ASCII byte is a rune of its own. -/
theorem runes_ascii (b : Nat) (tl : List Nat) (h : b < 128) :
    runes (b :: tl) = (b : Int) :: runes tl := by
  rw [runes_cons, DecodeRune_ascii b tl h]
  rfl

/-- The first rune is a space exactly when the first byte is. -/
theorem runes_head_ne (b : Nat) (tl : List Nat) (c : Nat) (hc : c < 128) (h : b ≠ c) :
    ∃ r rs, runes (b :: tl) = r :: rs ∧ r ≠ (c : Int) := by
  refine ⟨_, _, runes_cons b tl, ?_⟩
  by_cases hb : b < 128
  · rw [DecodeRune_ascii b tl hb]
    show (b : Int) ≠ (c : Int)
    omega
  · have := (DecodeRune_bounds b tl).2 (by omega)
    omega

/-- The inner loop consumes exactly the leading space runes. -/
theorem spaceLoop_spec (rest : List Nat) (j rpos : Int) :
    runes (spaceLoop rest j rpos).1 =
        (runes rest).drop ((runes rest).takeWhile (fun r => decide (r = 0x20))).length ∧
      (spaceLoop rest j rpos).2.1 = j + leadingSpaces (runes rest) ∧
      (spaceLoop rest j rpos).2.2 = rpos + leadingSpaces (runes rest) ∧
      (spaceLoop rest j rpos).1.length ≤ rest.length := by
  induction rest generalizing j rpos with
  | nil => simp [spaceLoop, runes_nil, leadingSpaces]
  | cons b tl ih =>
    by_cases hb : b = 0x20
    · subst hb
      have h := ih (j + 1) (rpos + 1)
      simp only [spaceLoop, if_true, reduceIte]
      rw [runes_ascii 0x20 tl (by decide)]
      simp only [leadingSpaces] at h ⊢
      simp only [Nat.cast_ofNat, List.takeWhile_cons, decide_True, if_true, List.length_cons,
        List.drop_succ_cons, reduceIte]
      refine ⟨h.1, ?_, ?_, ?_⟩
      · rw [h.2.1]; push_cast; ring
      · rw [h.2.2.1]; push_cast; ring
      · exact Nat.le_succ_of_le h.2.2.2
    · obtain ⟨r, rs, hr, hne⟩ := runes_head_ne b tl 0x20 (by decide) hb
      simp only [spaceLoop, if_neg hb]
      rw [hr]
      have hne2 : ¬ (r = 32) := hne
      simp [leadingSpaces, List.takeWhile_cons, hne2]
/-! ## The index scan -/

/-- One iteration of the outer loop on a non-empty rest. -/
theorem indexLoop_step (fuel : Nat) (b : Nat) (tl : List Nat) (rpos : Int)
    (ix : List Int × List Int) :
    indexLoop (fuel + 1) (b :: tl) rpos ix =
      if ix.2 = [] ∨ (DecodeRune (b :: tl)).1 = 10 then
        indexLoop fuel (spaceLoop ((b :: tl).drop (DecodeRune (b :: tl)).2) 0 (rpos + 1)).1
          (spaceLoop ((b :: tl).drop (DecodeRune (b :: tl)).2) 0 (rpos + 1)).2.2
          (ix.1 ++ [rpos + 1],
            ix.2 ++ [(spaceLoop ((b :: tl).drop (DecodeRune (b :: tl)).2) 0 (rpos + 1)).2.1])
      else indexLoop fuel ((b :: tl).drop (DecodeRune (b :: tl)).2) (rpos + 1) ix := by
  simp only [indexLoop, List.cons_ne_nil, if_false, reduceIte]

theorem indexLoop_nil (fuel : Nat) (rpos : Int) (ix : List Int × List Int) :
    indexLoop fuel [] rpos ix = ix := by
  cases fuel <;> simp [indexLoop]

theorem leadingSpaces_nonneg (rs : List Int) : 0 ≤ leadingSpaces rs := by
  unfold leadingSpaces; omega

/-- The scan only appends: it adds as many line starts as indents, every added
line start is beyond the rune position the scan began at, and they increase. -/
theorem indexLoop_struct (fuel : Nat) (rest : List Nat) (rpos : Int)
    (ix : List Int × List Int) :
    ∃ xs ys, indexLoop fuel rest rpos ix = (ix.1 ++ xs, ix.2 ++ ys) ∧
      xs.length = ys.length ∧ (∀ x ∈ xs, rpos < x) ∧ xs.Pairwise (fun a b => a < b) := by
  induction fuel generalizing rest rpos ix with
  | zero => exact ⟨[], [], by simp [indexLoop], rfl, by simp, List.Pairwise.nil⟩
  | succ n ih =>
    cases rest with
    | nil => exact ⟨[], [], by simp [indexLoop], rfl, by simp, List.Pairwise.nil⟩
    | cons b tl =>
      rw [indexLoop_step]
      split_ifs with hc
      · have hsp := spaceLoop_spec ((b :: tl).drop (DecodeRune (b :: tl)).2) 0 (rpos + 1)
        have hnn := leadingSpaces_nonneg (runes ((b :: tl).drop (DecodeRune (b :: tl)).2))
        obtain ⟨xs, ys, he, hl, hgt, hp⟩ := ih
          (spaceLoop ((b :: tl).drop (DecodeRune (b :: tl)).2) 0 (rpos + 1)).1
          (spaceLoop ((b :: tl).drop (DecodeRune (b :: tl)).2) 0 (rpos + 1)).2.2
          (ix.1 ++ [rpos + 1],
            ix.2 ++ [(spaceLoop ((b :: tl).drop (DecodeRune (b :: tl)).2) 0 (rpos + 1)).2.1])
        refine ⟨(rpos + 1) :: xs,
          (spaceLoop ((b :: tl).drop (DecodeRune (b :: tl)).2) 0 (rpos + 1)).2.1 :: ys, ?_, ?_, ?_, ?_⟩
        · rw [he]; simp
        · simp [hl]
        · intro x hx
          rcases List.mem_cons.1 hx with hx | hx
          · omega
          · have := hgt x hx
            rw [hsp.2.2.1] at this
            omega
        · refine List.Pairwise.cons ?_ hp
          intro x hx
          have := hgt x hx
          rw [hsp.2.2.1] at this
          omega
      · obtain ⟨xs, ys, he, hl, hgt, hp⟩ := ih ((b :: tl).drop (DecodeRune (b :: tl)).2) (rpos + 1) ix
        refine ⟨xs, ys, he, hl, ?_, hp⟩
        intro x hx
        have := hgt x hx
        omega

/-- As many iterations as there are bytes left complete the scan: more fuel
gives the same index. -/
theorem indexLoop_fuel (f1 f2 : Nat) (rest : List Nat) (rpos : Int) (ix : List Int × List Int)
    (h1 : rest.length ≤ f1) (h2 : rest.length ≤ f2) :
    indexLoop f1 rest rpos ix = indexLoop f2 rest rpos ix := by
  induction f1 generalizing f2 rest rpos ix with
  | zero =>
    have : rest = [] := List.length_eq_zero.1 (by omega)
    subst this
    rw [indexLoop_nil, indexLoop_nil]
  | succ n ih =>
    cases rest with
    | nil => rw [indexLoop_nil, indexLoop_nil]
    | cons b tl =>
      cases f2 with
      | zero => simp at h2
      | succ m =>
        have hs := (DecodeRune_bounds b tl).1
        have hd : ((b :: tl).drop (DecodeRune (b :: tl)).2).length ≤ tl.length := by
          simp only [List.length_drop, List.length_cons]; omega
        have hsp := (spaceLoop_spec ((b :: tl).drop (DecodeRune (b :: tl)).2) 0 (rpos + 1)).2.2.2
        simp only [List.length_cons] at h1 h2
        rw [indexLoop_step, indexLoop_step]
        split_ifs with hc
        · apply ih <;> omega
        · apply ih <;> omega

/-- The first `Transform(atEOF=true)` of a fresh transformer leaves the index
the scan builds from the empty slices, whatever the engine does. -/
theorem builtIndex_eq {σ : Type} (eng : Engine σ) (e : σ) (dst src : List Nat) :
    builtIndex eng e dst src = indexLoop src.length src 0 ([], []) := by
  simp [builtIndex, Transformer.Transform, Transformer.fresh]

/-- A rune that is not a space lies beyond the leading spaces. -/
theorem takeWhile_space_le (l : List Int) (q : Nat) (c : Int) (hc : c ≠ 0x20)
    (h : l[q]? = some c) : (l.takeWhile (fun r => decide (r = 0x20))).length ≤ q := by
  induction l generalizing q with
  | nil => simp
  | cons a tl ih =>
    by_cases ha : a = 0x20
    · cases q with
      | zero =>
        simp only [List.getElem?_cons_zero, Option.some.injEq] at h
        exact absurd (h ▸ ha) hc
      | succ q =>
        simp only [List.getElem?_cons_succ] at h
        have := ih q h
        simp only [List.takeWhile_cons, ha, decide_True, if_true, List.length_cons, reduceIte]
        omega
    · simp [List.takeWhile_cons, ha]

/-- The element appended right after `l` sits at index `len(l)`. -/
theorem getElem?_append_mid (l xs : List Int) (a : Int) :
    ((l ++ [a]) ++ xs)[l.length]? = some a := by
  rw [List.getElem?_append_left (by simp)]
  exact List.getElem?_concat_length l a

/-- Every newline rune, at rune offset `q` of the rest, gets an index entry:
its line start is the offset after the newline and its indent the number of
space runes that follow. -/
theorem indexLoop_newline (fuel : Nat) (rest : List Nat) (rpos : Int)
    (ix : List Int × List Int) (hf : rest.length ≤ fuel) (hl : ix.1.length = ix.2.length)
    (q : Nat) (hq : (runes rest)[q]? = some 10) :
    ∃ k : Nat, (indexLoop fuel rest rpos ix).1[k]? = some (rpos + q + 1) ∧
      (indexLoop fuel rest rpos ix).2[k]? = some (leadingSpaces ((runes rest).drop (q + 1))) := by
  induction fuel generalizing rest rpos ix q with
  | zero =>
    have : rest = [] := List.length_eq_zero.1 (by omega)
    subst this
    simp [runes_nil] at hq
  | succ n ih =>
    cases rest with
    | nil => simp [runes_nil] at hq
    | cons b tl =>
      have hs := (DecodeRune_bounds b tl).1
      have hd : ((b :: tl).drop (DecodeRune (b :: tl)).2).length ≤ tl.length := by
        simp only [List.length_drop, List.length_cons]; omega
      have hsp := spaceLoop_spec ((b :: tl).drop (DecodeRune (b :: tl)).2) 0 (rpos + 1)
      simp only [List.length_cons] at hf
      rw [runes_cons] at hq ⊢
      rw [indexLoop_step]
      cases q with
      | zero =>
        simp only [List.getElem?_cons_zero, Option.some.injEq] at hq
        rw [if_pos (Or.inr hq)]
        obtain ⟨xs, ys, he, _, _, _⟩ := indexLoop_struct n
          (spaceLoop ((b :: tl).drop (DecodeRune (b :: tl)).2) 0 (rpos + 1)).1
          (spaceLoop ((b :: tl).drop (DecodeRune (b :: tl)).2) 0 (rpos + 1)).2.2
          (ix.1 ++ [rpos + 1],
            ix.2 ++ [(spaceLoop ((b :: tl).drop (DecodeRune (b :: tl)).2) 0 (rpos + 1)).2.1])
        refine ⟨ix.1.length, ?_, ?_⟩
        · rw [he]
          show ((ix.1 ++ [rpos + 1]) ++ xs)[ix.1.length]? = _
          rw [getElem?_append_mid]
          congr 1
          omega
        · rw [he, hl]
          show ((ix.2 ++ [_]) ++ ys)[ix.2.length]? = _
          rw [getElem?_append_mid, hsp.2.1]
          simp
      | succ q =>
        simp only [List.getElem?_cons_succ] at hq
        split_ifs with hc
        · have hle := takeWhile_space_le _ q 10 (by decide) hq
          have hq2 : (runes (spaceLoop ((b :: tl).drop (DecodeRune (b :: tl)).2) 0 (rpos + 1)).1)[
              q - ((runes ((b :: tl).drop (DecodeRune (b :: tl)).2)).takeWhile
                (fun r => decide (r = 0x20))).length]? = some 10 := by
            rw [hsp.1, List.getElem?_drop, ← hq]
            congr 1
            omega
          obtain ⟨k, hk1, hk2⟩ := ih _ (spaceLoop ((b :: tl).drop (DecodeRune (b :: tl)).2) 0 (rpos + 1)).2.2
            (ix.1 ++ [rpos + 1],
              ix.2 ++ [(spaceLoop ((b :: tl).drop (DecodeRune (b :: tl)).2) 0 (rpos + 1)).2.1])
            (by omega) (by simp [hl]) _ hq2
          refine ⟨k, ?_, ?_⟩
          · rw [hk1, hsp.2.2.1]
            congr 1
            unfold leadingSpaces
            push_cast
            omega
          · rw [hk2, hsp.1, List.drop_drop]
            simp only [List.drop_succ_cons]
            congr 3
            omega
        · obtain ⟨k, hk1, hk2⟩ := ih _ (rpos + 1) ix (by omega) hl q hq
          refine ⟨k, ?_, ?_⟩
          · rw [hk1]
            congr 1
            push_cast
            omega
          · rw [hk2]
            simp only [List.drop_succ_cons]

/-! ## The claims on the built index -/

/-- C3: for every source buffer and every newline rune in it, at rune offset
`p`, the index built by the first `Transform(atEOF=true)` of a fresh transformer
has an entry `k` with `lineStarts[k] = p + 1` and `indents[k]` the number of
consecutive space runes (0x20) right after that newline; any other rune, a
tab included, ends the count. -/
theorem builtIndex_newline_entry {σ : Type} (eng : Engine σ) (e : σ) (dst src : List Nat)
    (p : Nat) (hp : (runes src)[p]? = some 10) :
    ∃ k : Nat, (builtIndex eng e dst src).1[k]? = some ((p : Int) + 1) ∧
      (builtIndex eng e dst src).2[k]? =
        some (((((runes src).drop (p + 1)).takeWhile (fun r => decide (r = 0x20))).length : Nat) : Int) := by
  rw [builtIndex_eq]
  obtain ⟨k, h1, h2⟩ := indexLoop_newline src.length src 0 ([], []) (le_refl _) rfl p hp
  refine ⟨k, ?_, h2⟩
  rw [h1]
  congr 1
  omega

/-- Witness of C3: in `"a\n \tb"` the newline at rune offset 1 gives an entry
with line start 2 and indent 1 (the tab ends the count). -/
theorem builtIndex_newline_entry_witness :
    (runes [97, 10, 32, 9, 98])[1]? = some 10 ∧
      ∃ k : Nat, (builtIndex copyEngine () [] [97, 10, 32, 9, 98]).1[k]? = some (((1 : Nat) : Int) + 1) ∧
        (builtIndex copyEngine () [] [97, 10, 32, 9, 98]).2[k]? =
          some (((((runes [97, 10, 32, 9, 98]).drop (1 + 1)).takeWhile
            (fun r => decide (r = 0x20))).length : Nat) : Int) :=
  ⟨by decide, builtIndex_newline_entry copyEngine () [] [97, 10, 32, 9, 98] 1 (by decide)⟩

/-- C9: for every source buffer, after the first `Transform(atEOF=true)` of a
fresh transformer, `len(lineStarts) == len(indents)` and `lineStarts` is strictly
increasing. -/
theorem builtIndex_lengths_increasing {σ : Type} (eng : Engine σ) (e : σ) (dst src : List Nat) :
    (builtIndex eng e dst src).1.length = (builtIndex eng e dst src).2.length ∧
      (builtIndex eng e dst src).1.Pairwise (fun a b => a < b) := by
  rw [builtIndex_eq]
  obtain ⟨xs, ys, he, hl, _, hp⟩ := indexLoop_struct src.length src 0 ([], [])
  rw [he]
  exact ⟨by simpa using hl, by simpa using hp⟩

/-! ## `sort.SearchInts` -/

/-- The binary search on `[i, j)` with fuel at least `j - i` returns the least
index at which a monotone `f` holds: `f` is false below the result and true
from it on. -/
theorem searchLoop_spec (f : Nat → Bool) (n : Nat)
    (hmono : ∀ a b, a ≤ b → b < n → f a = true → f b = true)
    (fuel i j : Nat) (hfuel : j - i ≤ fuel) (hij : i ≤ j) (hjn : j ≤ n)
    (hlo : ∀ k, k < i → f k = false) (hhi : ∀ k, j ≤ k → k < n → f k = true) :
    i ≤ searchLoop f fuel i j ∧ searchLoop f fuel i j ≤ j ∧
      (∀ k, k < searchLoop f fuel i j → f k = false) ∧
      (∀ k, searchLoop f fuel i j ≤ k → k < n → f k = true) := by
  induction fuel generalizing i j with
  | zero =>
    have : i = j := by omega
    subst this
    exact ⟨le_refl _, le_refl _, hlo, hhi⟩
  | succ m ih =>
    unfold searchLoop
    by_cases hlt : i < j
    · rw [if_pos hlt]
      have hh : (i + j) >>> 1 = (i + j) / 2 := by
        rw [Nat.shiftRight_eq_div_pow]
      simp only [hh]
      have h1 : i ≤ (i + j) / 2 := by omega
      have h2 : (i + j) / 2 < j := by omega
      cases hf : f ((i + j) / 2)
      · simp only [Bool.not_false, if_true, reduceIte]
        have := ih ((i + j) / 2 + 1) j (by omega) (by omega) hjn
          (fun k hk => by
            cases hk2 : f k
            · rfl
            · have := hmono k ((i + j) / 2) (by omega) (by omega) hk2
              rw [hf] at this
              exact absurd this (by decide))
          hhi
        exact ⟨by omega, this.2.1, this.2.2⟩
      · simp only [Bool.not_true, if_false, Bool.false_eq_true, reduceIte]
        have := ih i ((i + j) / 2) (by omega) h1 (by omega) hlo
          (fun k hk hkn => hmono ((i + j) / 2) k hk hkn hf)
        exact ⟨this.1, by omega, this.2.2⟩
    · rw [if_neg hlt]
      have : i = j := by omega
      subst this
      exact ⟨le_refl _, le_refl _, hlo, hhi⟩

/-- On a strictly increasing slice `sort.SearchInts(a, x)` is the number of
entries below `x`: the entries before it are `< x`, those from it on are `≥ x`. -/
theorem SearchInts_spec (a : List Int) (x : Int) (hs : a.Pairwise (fun u v => u < v)) :
    SearchInts a x ≤ a.length ∧
      (∀ k, k < SearchInts a x → a.getD k 0 < x) ∧
      (∀ k, SearchInts a x ≤ k → k < a.length → x ≤ a.getD k 0) := by
  have hmono : ∀ u v, u ≤ v → v < a.length →
      (fun i => decide (a.getD i 0 ≥ x)) u = true → (fun i => decide (a.getD i 0 ≥ x)) v = true := by
    intro u v huv hv hu
    simp only [ge_iff_le, decide_eq_true_eq] at hu ⊢
    rcases Nat.eq_or_lt_of_le huv with h | h
    · subst h; exact hu
    · have hu' : u < a.length := by omega
      have := List.pairwise_iff_getElem.1 hs u v hu' hv h
      rw [List.getD_eq_getElem _ _ hu'] at hu
      rw [List.getD_eq_getElem _ _ hv]
      omega
  have h := searchLoop_spec (fun i => decide (a.getD i 0 ≥ x)) a.length hmono a.length 0 a.length
    (by omega) (Nat.zero_le _) (le_refl _) (fun k hk => absurd hk (Nat.not_lt_zero k))
    (fun k hk hkn => absurd hkn (by omega))
  refine ⟨h.2.1, ?_, ?_⟩
  · intro k hk
    have := h.2.2.1 k hk
    simp only [ge_iff_le, decide_eq_false_iff_not, not_le] at this
    exact this
  · intro k hk hkn
    have := h.2.2.2 k hk hkn
    simp only [ge_iff_le, decide_eq_true_eq] at this
    exact this

/-- On a strictly increasing slice, an operation that starts exactly at
`lineStarts[i]` is given line `i - 1` by the lookup, not line `i`. -/
theorem lookupLine_at_start (ls : List Int) (hs : ls.Pairwise (fun u v => u < v)) (i : Nat)
    (s : Int) (hi : ls[i]? = some s) : lookupLine ls s = (i : Int) - 1 := by
  obtain ⟨hle, hlo, hhi⟩ := SearchInts_spec ls s hs
  have hil : i < ls.length := (List.getElem?_eq_some_iff.1 hi).1
  have hv : ls.getD i 0 = s := by
    rw [List.getD_eq_getElem?_getD, hi]; rfl
  have h1 : SearchInts ls s ≤ i := by
    by_contra hc
    have := hlo i (by omega)
    omega
  have h2 : i ≤ SearchInts ls s := by
    by_contra hc
    have hlt : SearchInts ls s < i := by omega
    have hk := hhi (SearchInts ls s) (le_refl _) (by omega)
    have := List.pairwise_iff_getElem.1 hs (SearchInts ls s) i (by omega) hil hlt
    rw [List.getD_eq_getElem _ _ (by omega : SearchInts ls s < ls.length)] at hk
    have hv2 : ls[i] = s := (List.getElem?_eq_some_iff.1 hi).2
    omega
  unfold lookupLine
  omega

/-- C2 (the code differs): on a fresh transformer the line-0 entry is appended
inside the loop, after the first rune has been consumed and `rpos` incremented,
so the first line start is 1 and the first rune is not counted as indentation:
`"a"` gives `([1], [0])`, `"a\n  b"` gives `([1, 2], [0, 2])` and `"  a"` gives
`([1], [1])`, where the claim has `[0]`, `[0, 2]` and an indent of 2. -/
theorem builtIndex_first_line_start :
    builtIndex copyEngine () [] [97] = ([1], [0]) ∧
      builtIndex copyEngine () [] [97, 10, 32, 32, 98] = ([1, 2], [0, 2]) ∧
      builtIndex copyEngine () [] [32, 32, 97] = ([1], [1]) := by
  decide

/-- For every non-empty buffer the first line start the scan records is 1. -/
theorem builtIndex_head {σ : Type} (eng : Engine σ) (e : σ) (dst : List Nat) (b : Nat)
    (tl : List Nat) : (builtIndex eng e dst (b :: tl)).1.head? = some 1 := by
  rw [builtIndex_eq]
  simp only [List.length_cons]
  rw [indexLoop_step, if_pos (Or.inl rfl)]
  obtain ⟨xs, ys, he, _⟩ := indexLoop_struct tl.length
    (spaceLoop ((b :: tl).drop (DecodeRune (b :: tl)).2) 0 (0 + 1)).1
    (spaceLoop ((b :: tl).drop (DecodeRune (b :: tl)).2) 0 (0 + 1)).2.2
    (([] : List Int) ++ [0 + 1],
      ([] : List Int) ++ [(spaceLoop ((b :: tl).drop (DecodeRune (b :: tl)).2) 0 (0 + 1)).2.1])
  rw [he]
  simp

/-- C10 (the code differs): for the empty buffer the loop body never runs, so
the first `Transform(atEOF=true)` of a fresh transformer leaves both slices
empty; no entry for line 0 is recorded. -/
theorem builtIndex_empty : builtIndex copyEngine () [] [] = ([], []) := by
  decide

/-! ## The driver -/

/-- C6: `Transform` with `atEOF == false` returns `(0, 0, ErrShortSrc)` and does
nothing else: the transformer (flag, line starts, indents and the engine state,
for every engine) and `dst` are returned as they were. -/
theorem Transform_not_atEOF {σ : Type} (eng : Engine σ) (t : Transformer σ)
    (dst src : List Nat) :
    Transformer.Transform eng t dst src false = (t, dst, 0, 0, ErrShortSrc) := by
  simp [Transformer.Transform]

/-- `Reset` keeps the index-built flag and the line starts; only the indents
are dropped (and the engine reset). -/
theorem Reset_keeps {σ : Type} (eng : Engine σ) (t : Transformer σ) :
    (Transformer.Reset eng t).linesDone = t.linesDone ∧
      (Transformer.Reset eng t).lineStarts = t.lineStarts ∧
      (Transformer.Reset eng t).indents = [] := ⟨rfl, rfl, rfl⟩

/-- C5 (the code differs): after a pass over `"a\n  b"` and a `Reset`, the flag
is still set and the line starts are still `[1, 2]`; the next
`Transform(atEOF=true)`, on `"x"`, does not scan, leaving line starts `[1, 2]`
and no indents, where a fresh transformer builds `([1], [0])`. -/
theorem Reset_then_Transform :
    (Transformer.Reset copyEngine
        (Transformer.Transform copyEngine (Transformer.fresh ()) [] [97, 10, 32, 32, 98] true).1).linesDone
        = true ∧
      (Transformer.Reset copyEngine
        (Transformer.Transform copyEngine (Transformer.fresh ()) [] [97, 10, 32, 32, 98] true).1).lineStarts
        = [1, 2] ∧
      (Transformer.Transform copyEngine
        (Transformer.Reset copyEngine
          (Transformer.Transform copyEngine (Transformer.fresh ()) [] [97, 10, 32, 32, 98] true).1)
        [] [120] true).1.lineStarts = [1, 2] ∧
      (Transformer.Transform copyEngine
        (Transformer.Reset copyEngine
          (Transformer.Transform copyEngine (Transformer.fresh ()) [] [97, 10, 32, 32, 98] true).1)
        [] [120] true).1.indents = [] ∧
      builtIndex copyEngine () [] [120] = ([1], [0]) := by
  decide

/-! ## `quotedOp` -/

/-- C4 (the code differs): in `"a:\n  - x\nb: 1"` the index is
`([1, 3, 9], [0, 2, 0])`; for an operation starting at rune 9, the start of line
2 (`lineStarts[2] == 9`), `sort.SearchInts(...) - 1` is line 1, whose indent 2 is
read, where the claim selects line 2 (indent 0).  For a start of 0 or 1 the
line is -1 and the slice index is out of range. -/
theorem lookupLine_tie :
    builtIndex copyEngine () []
        [97, 58, 10, 32, 32, 45, 32, 120, 10, 98, 58, 32, 49] = ([1, 3, 9], [0, 2, 0]) ∧
      ([1, 3, 9] : List Int)[2]? = some 9 ∧
      lookupLine [1, 3, 9] 9 = 1 ∧
      sliceIndex [0, 2, 0] (lookupLine [1, 3, 9] 9) = some 2 ∧
      lookupLine [1, 3, 9] 1 = -1 ∧
      sliceIndex [0, 2, 0] (lookupLine [1, 3, 9] 1) = none := by
  decide

/-- C7: if the original `Replace` fails on `prev` with error `e`, the wrapped
`Replace` returns `("", e)`, for every quoting policy and every state of the
line index (also one on which the lookup would be out of range): neither is
used. -/
theorem quotedOp_replace_error (quote : String → String → Int → String × GoError) (op : Op)
    (lineStarts indents : List Int) (prev : String) (e : String)
    (h : (op.Replace prev).2 = some e) :
    (quotedOp quote op).Replace lineStarts indents prev = Outcome.ret "" (some e) := by
  simp [quotedOp, quotedReplace, h]

/-- Witness of C7: an operation whose `Replace` returns `("half", "boom")`,
wrapped and called on an empty index. -/
theorem quotedOp_replace_error_witness :
    ((⟨0, 1, fun _ => ("half", some "boom")⟩ : Op).Replace "x").2 = some "boom" ∧
      (quotedOp (fun v _ _ => (v, none)) ⟨0, 1, fun _ => ("half", some "boom")⟩).Replace
        [] [] "x" = Outcome.ret "" (some "boom") :=
  ⟨rfl, quotedOp_replace_error (fun v _ _ => (v, none)) ⟨0, 1, fun _ => ("half", some "boom")⟩
    [] [] "x" "boom" rfl⟩

/-- C8: if the original `Replace` succeeds on `prev` with value `v`, and `d` is
`indents[line]` for the line the lookup computes from `op.Start`, the wrapped
`Replace` returns exactly the text and error of `quote(v, prev, d)`. -/
theorem quotedOp_replace_ok (quote : String → String → Int → String × GoError) (op : Op)
    (lineStarts indents : List Int) (prev v : String) (d : Int)
    (h : op.Replace prev = (v, none))
    (hd : sliceIndex indents (lookupLine lineStarts op.Start) = some d) :
    (quotedOp quote op).Replace lineStarts indents prev =
      Outcome.ret (quote v prev d).1 (quote v prev d).2 := by
  simp [quotedOp, quotedReplace, h, hd]

/-- Witness of C8: on the index of `"a\n  b"`, an operation starting at rune 4
(line 1, indent 2) with a policy that returns its arguments. -/
theorem quotedOp_replace_ok_witness :
    (⟨4, 5, fun _ => ("new", none)⟩ : Op).Replace "b" = ("new", none) ∧
      sliceIndex [0, 2] (lookupLine [1, 2] (⟨4, 5, fun _ => ("new", none)⟩ : Op).Start) = some 2 ∧
      (quotedOp (fun v p d => (v ++ p, if d = 2 then none else some "indent"))
          ⟨4, 5, fun _ => ("new", none)⟩).Replace [1, 2] [0, 2] "b" =
        Outcome.ret
          ((fun (v p : String) (d : Int) => (v ++ p, if d = 2 then none else some "indent"))
            "new" "b" 2).1
          ((fun (v p : String) (d : Int) => (v ++ p, if d = 2 then (none : GoError) else some "indent"))
            "new" "b" 2).2 :=
  ⟨rfl, by decide, quotedOp_replace_ok (fun v p d => (v ++ p, if d = 2 then none else some "indent"))
    ⟨4, 5, fun _ => ("new", none)⟩ [1, 2] [0, 2] "b" "new" 2 rfl (by decide)⟩


/-! ## The number of index entries -/

/-- Dropping the leading spaces of a rune sequence drops no newline. -/
theorem count_newline_drop_spaces (l : List Int) :
    (l.drop (l.takeWhile (fun r => decide (r = 0x20))).length).count 10 = l.count 10 := by
  induction l with
  | nil => simp
  | cons a tl ih =>
    by_cases ha : a = 0x20
    · subst ha
      simp only [List.takeWhile_cons, decide_True, if_true, List.length_cons, List.drop_succ_cons,
        reduceIte]
      rw [ih, List.count_cons_of_ne (by decide)]
    · simp [List.takeWhile_cons, ha]

/-- Once the index has an entry, the scan appends one line start per newline
rune of the rest. -/
theorem indexLoop_length (fuel : Nat) (rest : List Nat) (rpos : Int)
    (ix : List Int × List Int) (hf : rest.length ≤ fuel) (hne : ix.2 ≠ []) :
    (indexLoop fuel rest rpos ix).1.length = ix.1.length + (runes rest).count 10 := by
  induction fuel generalizing rest rpos ix with
  | zero =>
    have : rest = [] := List.length_eq_zero.1 (by omega)
    subst this
    simp [indexLoop, runes_nil]
  | succ n ih =>
    cases rest with
    | nil => simp [indexLoop, runes_nil]
    | cons b tl =>
      have hs := (DecodeRune_bounds b tl).1
      have hd : ((b :: tl).drop (DecodeRune (b :: tl)).2).length ≤ tl.length := by
        simp only [List.length_drop, List.length_cons]; omega
      have hsp := spaceLoop_spec ((b :: tl).drop (DecodeRune (b :: tl)).2) 0 (rpos + 1)
      simp only [List.length_cons] at hf
      rw [runes_cons, indexLoop_step]
      by_cases hr : (DecodeRune (b :: tl)).1 = 10
      · rw [if_pos (Or.inr hr), ih _ _ _ (by omega) (by simp), hsp.1, count_newline_drop_spaces,
          hr, List.count_cons_self]
        simp only [List.length_append, List.length_singleton]
        omega
      · rw [if_neg (by simp [hne, hr]), ih _ _ _ (by omega) hne,
          List.count_cons_of_ne (fun h => hr h.symm)]

/-- The number of line starts built for a non-empty buffer: one per newline
rune, plus one more only when the first rune is not a newline. -/
theorem builtIndex_length {σ : Type} (eng : Engine σ) (e : σ) (dst : List Nat) (b : Nat)
    (tl : List Nat) :
    (builtIndex eng e dst (b :: tl)).1.length =
      (runes (b :: tl)).count 10 + (if (DecodeRune (b :: tl)).1 = 10 then 0 else 1) := by
  have hs := (DecodeRune_bounds b tl).1
  have hd : ((b :: tl).drop (DecodeRune (b :: tl)).2).length ≤ tl.length := by
    simp only [List.length_drop, List.length_cons]; omega
  have hsp := spaceLoop_spec ((b :: tl).drop (DecodeRune (b :: tl)).2) 0 (0 + 1)
  rw [builtIndex_eq]
  simp only [List.length_cons]
  rw [indexLoop_step, if_pos (Or.inl rfl), indexLoop_length _ _ _ _ (by omega) (by simp), hsp.1,
    count_newline_drop_spaces, runes_cons]
  by_cases hr : (DecodeRune (b :: tl)).1 = 10
  · rw [if_pos hr, hr, List.count_cons_self]
    simp
    omega
  · rw [if_neg hr, List.count_cons_of_ne (fun h => hr h.symm)]
    simp
    omega

/-- C11 (the code differs): on `"\nb"` the single newline is also the first rune,
and the one branch that records the line-0 entry and the newline entries runs
once for it: one line start is built, `[1]`, where the claim has
`1 + 1 = 2` entries. -/
theorem builtIndex_leading_newline :
    builtIndex copyEngine () [] [10, 98] = ([1], [0]) ∧
      (runes [10, 98]).count 10 = 1 ∧
      (builtIndex copyEngine () [] [10, 98]).1.length ≠ 1 + (runes [10, 98]).count 10 := by
  decide


/-! ## The driver at end of input -/

/-- C16: with `atEOF == true`, `Transform` returns exactly what the engine's
`Transform` returns for the same `(dst, src, atEOF)` on the engine state the
transformer holds: the bytes in `dst` and the triple `(nDst, nSrc, err)`. -/
theorem Transform_atEOF_delegates {σ : Type} (eng : Engine σ) (t : Transformer σ)
    (dst src : List Nat) :
    (Transformer.Transform eng t dst src true).2 = (eng.Transform t.t dst src true).2 := by
  cases hl : t.linesDone <;> simp [Transformer.Transform, hl]

/-- C13: once the index-built flag is set, a further `Transform(atEOF=true)`, on
any buffer, leaves `lineStarts`, `indents` and the flag as they were. -/
theorem Transform_done_keeps_index {σ : Type} (eng : Engine σ) (t : Transformer σ)
    (dst src : List Nat) (h : t.linesDone = true) :
    (Transformer.Transform eng t dst src true).1.lineStarts = t.lineStarts ∧
      (Transformer.Transform eng t dst src true).1.indents = t.indents ∧
      (Transformer.Transform eng t dst src true).1.linesDone = true := by
  simp [Transformer.Transform, h]

/-- Witness of C13: after a first pass over `"a\n  b"`, a second pass over `"x\ny"`
keeps the index of the first. -/
theorem Transform_done_keeps_index_witness :
    (Transformer.Transform copyEngine (Transformer.fresh ()) [] [97, 10, 32, 32, 98] true).1.linesDone
        = true ∧
      ((Transformer.Transform copyEngine
          (Transformer.Transform copyEngine (Transformer.fresh ()) [] [97, 10, 32, 32, 98] true).1
          [] [120, 10, 121] true).1.lineStarts =
        (Transformer.Transform copyEngine (Transformer.fresh ()) [] [97, 10, 32, 32, 98] true).1.lineStarts ∧
       (Transformer.Transform copyEngine
          (Transformer.Transform copyEngine (Transformer.fresh ()) [] [97, 10, 32, 32, 98] true).1
          [] [120, 10, 121] true).1.indents =
        (Transformer.Transform copyEngine (Transformer.fresh ()) [] [97, 10, 32, 32, 98] true).1.indents ∧
       (Transformer.Transform copyEngine
          (Transformer.Transform copyEngine (Transformer.fresh ()) [] [97, 10, 32, 32, 98] true).1
          [] [120, 10, 121] true).1.linesDone = true) :=
  ⟨by decide, Transform_done_keeps_index copyEngine
    (Transformer.Transform copyEngine (Transformer.fresh ()) [] [97, 10, 32, 32, 98] true).1
    [] [120, 10, 121] (by decide)⟩

/-! ## `T` -/

/-- C17: `T(ops)` hands `splice.T` the list of wrapped operations, which has
`len(ops)` entries, the `i`-th being `quotedOp(ops[i])`, with the `Start` and `End`
of `ops[i]`. -/
theorem T_wraps_each_op {σ : Type} (spliceT : List QuotedOp → σ)
    (quote : String → String → Int → String × GoError) (ops : List Op) :
    (T spliceT quote ops).t = spliceT (T_qops quote ops) ∧
      (T_qops quote ops).length = ops.length ∧
      (∀ i : Nat, (T_qops quote ops)[i]? = (ops[i]?).map (quotedOp quote)) ∧
      (∀ i : Nat, ((T_qops quote ops)[i]?).map (fun q => (q.Start, q.End)) =
        (ops[i]?).map (fun o => (o.Start, o.End))) := by
  refine ⟨rfl, by simp [T_qops], fun i => by simp [T_qops], fun i => ?_⟩
  simp only [T_qops, List.getElem?_map, Option.map_map]
  rfl

/-- C12: a transformer built by `T` from no operations, whose engine copies
verbatim, driven once with `Transform(atEOF=true)`, writes the buffer itself:
the first `nDst` bytes of `dst` are `src`, all of `src` is read, and there is no
error. -/
theorem T_no_ops_identity {σ : Type} (eng : Engine σ) (spliceT : List QuotedOp → σ)
    (quote : String → String → Int → String × GoError) (dst src : List Nat)
    (h : CopiesVerbatim eng (spliceT []) dst src) :
    (Transformer.Transform eng (T spliceT quote []) dst src true).2.1.take
        (Transformer.Transform eng (T spliceT quote []) dst src true).2.2.1.toNat = src ∧
      (Transformer.Transform eng (T spliceT quote []) dst src true).2.2.2.1 = (src.length : Int) ∧
      (Transformer.Transform eng (T spliceT quote []) dst src true).2.2.2.2 = none := by
  have hd : (Transformer.Transform eng (T spliceT quote []) dst src true).2 =
      (eng.Transform (spliceT []) dst src true).2 := by
    simp [Transformer.Transform, T, T_qops]
  rw [hd]
  exact ⟨h.1, h.2.2.1, h.2.2.2⟩

/-- Witness of C12: the copying engine on `"a: 1\n"`. -/
theorem T_no_ops_identity_witness :
    CopiesVerbatim copyEngine ((fun _ => ()) ([] : List QuotedOp)) [] [97, 58, 32, 49, 10] ∧
      ((Transformer.Transform copyEngine (T (fun _ => ()) (fun v _ _ => (v, none)) []) []
          [97, 58, 32, 49, 10] true).2.1.take
        (Transformer.Transform copyEngine (T (fun _ => ()) (fun v _ _ => (v, none)) []) []
          [97, 58, 32, 49, 10] true).2.2.1.toNat = [97, 58, 32, 49, 10] ∧
       (Transformer.Transform copyEngine (T (fun _ => ()) (fun v _ _ => (v, none)) []) []
          [97, 58, 32, 49, 10] true).2.2.2.1 = (([97, 58, 32, 49, 10] : List Nat).length : Int) ∧
       (Transformer.Transform copyEngine (T (fun _ => ()) (fun v _ _ => (v, none)) []) []
          [97, 58, 32, 49, 10] true).2.2.2.2 = none) :=
  ⟨by decide, T_no_ops_identity copyEngine (fun _ => ()) (fun v _ _ => (v, none)) []
    [97, 58, 32, 49, 10] (by decide)⟩

/-! ## The selection invariant -/

/-- C18 as stated fails: a literal-block node with `Index == IndexEnd == 5`
satisfies `Index <= IndexEnd`, and `Node` maps it to `[5, 4)`, whose start is
above its end. -/
theorem Node_block_empty_span :
    (⟨LiteralStyle, 5, 5⟩ : YamlNode).Index ≤ (⟨LiteralStyle, 5, 5⟩ : YamlNode).IndexEnd ∧
      Node ⟨LiteralStyle, 5, 5⟩ = ⟨5, 4⟩ ∧
      ¬ ((Node ⟨LiteralStyle, 5, 5⟩).Start ≤ (Node ⟨LiteralStyle, 5, 5⟩).End) := by
  decide

/-- C18, amended: for a node whose offsets are Go `int`s with
`Index + d <= IndexEnd`, where `d = 1` for the literal-block and folded-block
styles and `d = 0` otherwise, `Node n` satisfies `start <= end`. -/
theorem Node_start_le_end (n : YamlNode) (hI : isInt64 n.Index) (hE : isInt64 n.IndexEnd)
    (h : n.Index + (if n.Style.testBit 3 = true ∨ n.Style.testBit 4 = true then 1 else 0)
      ≤ n.IndexEnd) :
    (Node n).Start ≤ (Node n).End := by
  have hd : wrapInt64 (n.IndexEnd - (if n.Style &&& (LiteralStyle ||| FoldedStyle) ≠ 0 then 1 else 0))
      = n.IndexEnd - (if n.Style &&& (LiteralStyle ||| FoldedStyle) ≠ 0 then 1 else 0) := by
    apply wrapInt64_of_isInt64
    by_cases hb : n.Style.testBit 3 = true ∨ n.Style.testBit 4 = true
    · rw [if_pos hb] at h
      rw [if_pos ((blockMask_ne_zero_iff n.Style).2 hb)]
      unfold isInt64 at hI hE ⊢
      norm_num at hI hE ⊢
      omega
    · rw [if_neg (fun h => hb ((blockMask_ne_zero_iff n.Style).1 h))]
      simpa using hE
  show n.Index ≤ wrapInt64 _
  rw [hd]
  by_cases hb : n.Style.testBit 3 = true ∨ n.Style.testBit 4 = true
  · rw [if_pos hb] at h
    rw [if_pos ((blockMask_ne_zero_iff n.Style).2 hb)]
    omega
  · rw [if_neg hb] at h
    rw [if_neg (fun h => hb ((blockMask_ne_zero_iff n.Style).1 h))]
    omega

/-- Witness of the amended C18: a folded-block node spanning `[4, 9)`. -/
theorem Node_start_le_end_witness :
    isInt64 (4 : Int) ∧ isInt64 (9 : Int) ∧
      (4 : Int) + (if FoldedStyle.testBit 3 = true ∨ FoldedStyle.testBit 4 = true then 1 else 0)
        ≤ 9 ∧
      (Node ⟨FoldedStyle, 4, 9⟩).Start ≤ (Node ⟨FoldedStyle, 4, 9⟩).End :=
  ⟨by decide, by decide, by decide,
    Node_start_le_end ⟨FoldedStyle, 4, 9⟩ (by decide) (by decide) (by decide)⟩


/-! ## Invalid bytes -/

theorem matchesRanges_one (r1 : Nat × Nat) (tl : List Nat) :
    matchesRanges [r1] tl = true ↔
      (1 ≤ tl.length ∧ r1.1 ≤ tl.getD 0 0 ∧ tl.getD 0 0 ≤ r1.2) := by
  rcases tl with _ | ⟨b1, tl⟩ <;> simp [matchesRanges]

theorem matchesRanges_two (r1 r2 : Nat × Nat) (tl : List Nat) :
    matchesRanges [r1, r2] tl = true ↔
      (2 ≤ tl.length ∧ r1.1 ≤ tl.getD 0 0 ∧ tl.getD 0 0 ≤ r1.2 ∧
        r2.1 ≤ tl.getD 1 0 ∧ tl.getD 1 0 ≤ r2.2) := by
  rcases tl with _ | ⟨b1, _ | ⟨b2, tl⟩⟩ <;> simp [matchesRanges, and_assoc]

theorem matchesRanges_three (r1 r2 r3 : Nat × Nat) (tl : List Nat) :
    matchesRanges [r1, r2, r3] tl = true ↔
      (3 ≤ tl.length ∧ r1.1 ≤ tl.getD 0 0 ∧ tl.getD 0 0 ≤ r1.2 ∧
        r2.1 ≤ tl.getD 1 0 ∧ tl.getD 1 0 ≤ r2.2 ∧ r3.1 ≤ tl.getD 2 0 ∧ tl.getD 2 0 ≤ r3.2) := by
  rcases tl with _ | ⟨b1, _ | ⟨b2, _ | ⟨b3, tl⟩⟩⟩ <;> simp [matchesRanges, and_assoc]

/-- A non-ASCII head byte whose class and continuation bytes fit a row of the
table has a positive well-formed width. -/
theorem wellFormedWidth_pos (b : Nat) (tl : List Nat)
    (h : (194 ≤ b ∧ b ≤ 223 ∧ matchesRanges [(0x80, 0xBF)] tl = true) ∨
      (b = 224 ∧ matchesRanges [(0xA0, 0xBF), (0x80, 0xBF)] tl = true) ∨
      (225 ≤ b ∧ b ≤ 236 ∧ matchesRanges [(0x80, 0xBF), (0x80, 0xBF)] tl = true) ∨
      (b = 237 ∧ matchesRanges [(0x80, 0x9F), (0x80, 0xBF)] tl = true) ∨
      (238 ≤ b ∧ b ≤ 239 ∧ matchesRanges [(0x80, 0xBF), (0x80, 0xBF)] tl = true) ∨
      (b = 240 ∧ matchesRanges [(0x90, 0xBF), (0x80, 0xBF), (0x80, 0xBF)] tl = true) ∨
      (241 ≤ b ∧ b ≤ 243 ∧ matchesRanges [(0x80, 0xBF), (0x80, 0xBF), (0x80, 0xBF)] tl = true) ∨
      (b = 244 ∧ matchesRanges [(0x80, 0x8F), (0x80, 0xBF), (0x80, 0xBF)] tl = true)) :
    wellFormedWidth (b :: tl) ≠ 0 := by
  simp only [wellFormedWidth]
  rcases h with ⟨h1, h2, hm⟩ | ⟨h1, hm⟩ | ⟨h1, h2, hm⟩ | ⟨h1, hm⟩ | ⟨h1, h2, hm⟩ | ⟨h1, hm⟩ |
    ⟨h1, h2, hm⟩ | ⟨h1, hm⟩
  · rw [if_neg (by omega), if_pos ⟨h1, h2, hm⟩]
    decide
  · rw [if_neg (by omega), if_neg (fun hc => by have := hc.1; omega), if_pos ⟨h1, hm⟩]
    decide
  · rw [if_neg (by omega), if_neg (fun hc => by have := hc.2.1; omega),
      if_neg (fun hc => by have := hc.1; omega), if_pos ⟨h1, h2, hm⟩]
    decide
  · rw [if_neg (by omega), if_neg (fun hc => by have := hc.2.1; omega),
      if_neg (fun hc => by have := hc.1; omega), if_neg (fun hc => by have := hc.2.1; omega),
      if_pos ⟨h1, hm⟩]
    decide
  · rw [if_neg (by omega), if_neg (fun hc => by have := hc.2.1; omega),
      if_neg (fun hc => by have := hc.1; omega), if_neg (fun hc => by have := hc.2.1; omega),
      if_neg (fun hc => by have := hc.1; omega), if_pos ⟨h1, h2, hm⟩]
    decide
  · rw [if_neg (by omega), if_neg (fun hc => by have := hc.2.1; omega),
      if_neg (fun hc => by have := hc.1; omega), if_neg (fun hc => by have := hc.2.1; omega),
      if_neg (fun hc => by have := hc.1; omega), if_neg (fun hc => by have := hc.2.1; omega),
      if_pos ⟨h1, hm⟩]
    decide
  · rw [if_neg (by omega), if_neg (fun hc => by have := hc.2.1; omega),
      if_neg (fun hc => by have := hc.1; omega), if_neg (fun hc => by have := hc.2.1; omega),
      if_neg (fun hc => by have := hc.1; omega), if_neg (fun hc => by have := hc.2.1; omega),
      if_neg (fun hc => by have := hc.1; omega), if_pos ⟨h1, h2, hm⟩]
    decide
  · rw [if_neg (by omega), if_neg (fun hc => by have := hc.2.1; omega),
      if_neg (fun hc => by have := hc.1; omega), if_neg (fun hc => by have := hc.2.1; omega),
      if_neg (fun hc => by have := hc.1; omega), if_neg (fun hc => by have := hc.2.1; omega),
      if_neg (fun hc => by have := hc.1; omega), if_neg (fun hc => by have := hc.1; omega),
      if_pos ⟨h1, hm⟩]
    decide

/-- With no well-formed sequence at the head, a two-byte lead has a missing or
bad continuation. -/
theorem wellFormedWidth_two (b : Nat) (tl : List Nat) (hb : 194 ≤ b ∧ b < 224)
    (h : wellFormedWidth (b :: tl) = 0) : ¬ matchesRanges [(0x80, 0xBF)] tl = true :=
  fun hm => wellFormedWidth_pos b tl (Or.inl ⟨by omega, by omega, hm⟩) h

theorem DecodeRune_bad_two (b : Nat) (tl : List Nat) (hb : 194 ≤ b ∧ b < 224) (hf : first b = 2)
    (h : wellFormedWidth (b :: tl) = 0) : DecodeRune (b :: tl) = (RuneError, 1) := by
  have a1 : (2 : Nat) &&& 7 = 2 := by decide
  have a2 : (2 : Nat) >>> 4 = 0 := by decide
  have hm := wellFormedWidth_two b tl hb h
  rw [matchesRanges_one] at hm
  rw [DecodeRune_multi b tl (by omega), hf]
  simp only [a1, a2, acceptRanges]
  split_ifs <;> first
    | rfl
    | (exfalso; omega)

theorem DecodeRune_bad_three (b : Nat) (tl : List Nat) (x k lo hi : Nat) (hf : first b = x)
    (hx : x < 0xF0) (h7 : x &&& 7 = 3) (hk : x >>> 4 = k) (hacc : acceptRanges k = (lo, hi))
    (hm : ¬ matchesRanges [(lo, hi), (0x80, 0xBF)] tl = true) :
    DecodeRune (b :: tl) = (RuneError, 1) := by
  rw [matchesRanges_two] at hm
  rw [DecodeRune_multi b tl (by omega), hf]
  simp only [h7, hk, hacc]
  split_ifs <;> first
    | rfl
    | (exfalso; omega)

theorem DecodeRune_bad_four (b : Nat) (tl : List Nat) (x k lo hi : Nat) (hf : first b = x)
    (hx : x < 0xF0) (h7 : x &&& 7 = 4) (hk : x >>> 4 = k) (hacc : acceptRanges k = (lo, hi))
    (hm : ¬ matchesRanges [(lo, hi), (0x80, 0xBF), (0x80, 0xBF)] tl = true) :
    DecodeRune (b :: tl) = (RuneError, 1) := by
  rw [matchesRanges_three] at hm
  rw [DecodeRune_multi b tl (by omega), hf]
  simp only [h7, hk, hacc]
  split_ifs <;> first
    | rfl
    | (exfalso; omega)

/-- Where the buffer does not start with a well-formed UTF-8 sequence,
`DecodeRune` returns `(RuneError, 1)`: the invalid byte is a rune of width one. -/
theorem DecodeRune_of_not_wellFormed (b : Nat) (tl : List Nat)
    (h : wellFormedWidth (b :: tl) = 0) : DecodeRune (b :: tl) = (RuneError, 1) := by
  rcases first_cases b with ⟨hb, hf⟩ | ⟨hb, hf⟩ | ⟨hb, hb2, hf⟩ | ⟨hb, hf⟩ | ⟨hb, hb2, hf⟩ |
      ⟨hb, hf⟩ | ⟨hb, hf⟩ | ⟨hb, hb2, hf⟩ | ⟨hb, hf⟩
  · simp only [wellFormedWidth] at h
    rw [if_pos (by omega)] at h
    exact absurd h (by decide)
  · exact DecodeRune_invalid b tl hf
  · exact DecodeRune_bad_two b tl ⟨hb, hb2⟩ hf h
  · exact DecodeRune_bad_three b tl 19 1 0xA0 0xBF hf (by decide) (by decide) (by decide) rfl
      (fun hm => wellFormedWidth_pos b tl (Or.inr (Or.inl ⟨hb, hm⟩)) h)
  · refine DecodeRune_bad_three b tl 3 0 0x80 0xBF hf (by decide) (by decide) (by decide) rfl
      (fun hm => ?_)
    by_cases h6 : b ≤ 236
    · exact wellFormedWidth_pos b tl (Or.inr (Or.inr (Or.inl ⟨hb, h6, hm⟩))) h
    · by_cases h7 : b = 237
      · subst h7
        exact absurd hf (by decide)
      · exact wellFormedWidth_pos b tl
          (Or.inr (Or.inr (Or.inr (Or.inr (Or.inl ⟨by omega, by omega, hm⟩))))) h
  · exact DecodeRune_bad_three b tl 35 2 0x80 0x9F hf (by decide) (by decide) (by decide) rfl
      (fun hm => wellFormedWidth_pos b tl (Or.inr (Or.inr (Or.inr (Or.inl ⟨hb, hm⟩)))) h)
  · exact DecodeRune_bad_four b tl 52 3 0x90 0xBF hf (by decide) (by decide) (by decide) rfl
      (fun hm => wellFormedWidth_pos b tl
        (Or.inr (Or.inr (Or.inr (Or.inr (Or.inr (Or.inl ⟨hb, hm⟩)))))) h)
  · exact DecodeRune_bad_four b tl 4 0 0x80 0xBF hf (by decide) (by decide) (by decide) rfl
      (fun hm => wellFormedWidth_pos b tl
        (Or.inr (Or.inr (Or.inr (Or.inr (Or.inr (Or.inr (Or.inl ⟨hb, by omega, hm⟩))))))) h)
  · exact DecodeRune_bad_four b tl 68 4 0x80 0x8F hf (by decide) (by decide) (by decide) rfl
      (fun hm => wellFormedWidth_pos b tl
        (Or.inr (Or.inr (Or.inr (Or.inr (Or.inr (Or.inr (Or.inr ⟨hb, hm⟩))))))) h)

/-- C15: the index scan terminates on every byte buffer, malformed UTF-8
included.  As many iterations as there are bytes complete it (more fuel gives
the same index); every iteration consumes at least one byte, so what is left
for the next iteration is strictly shorter; and where no well-formed UTF-8
sequence starts, the byte is decoded as `(RuneError, 1)`: one rune, the scan
goes on one byte further with the rune position advanced by exactly one. -/
theorem indexScan_terminates :
    (∀ (src : List Nat) (rpos : Int) (ix : List Int × List Int) (fuel : Nat),
        src.length ≤ fuel → indexLoop fuel src rpos ix = indexLoop src.length src rpos ix) ∧
      (∀ (b : Nat) (tl : List Nat) (j rpos : Int),
        1 ≤ (DecodeRune (b :: tl)).2 ∧
          ((b :: tl).drop (DecodeRune (b :: tl)).2).length < (b :: tl).length ∧
          (spaceLoop ((b :: tl).drop (DecodeRune (b :: tl)).2) j rpos).1.length
            < (b :: tl).length) ∧
      (∀ (b : Nat) (tl : List Nat), wellFormedWidth (b :: tl) = 0 →
        DecodeRune (b :: tl) = (RuneError, 1) ∧
          runes (b :: tl) = RuneError :: runes tl ∧
          ∀ (fuel : Nat) (rpos : Int) (ix : List Int × List Int),
            indexLoop (fuel + 1) (b :: tl) rpos ix =
              if ix.2 = [] then
                indexLoop fuel (spaceLoop tl 0 (rpos + 1)).1 (spaceLoop tl 0 (rpos + 1)).2.2
                  (ix.1 ++ [rpos + 1], ix.2 ++ [(spaceLoop tl 0 (rpos + 1)).2.1])
              else indexLoop fuel tl (rpos + 1) ix) := by
  refine ⟨fun src rpos ix fuel h => indexLoop_fuel fuel src.length src rpos ix h (le_refl _),
    fun b tl j rpos => ?_, fun b tl h => ?_⟩
  · have hs := (DecodeRune_bounds b tl).1
    have hsp := (spaceLoop_spec ((b :: tl).drop (DecodeRune (b :: tl)).2) j rpos).2.2.2
    have hd : ((b :: tl).drop (DecodeRune (b :: tl)).2).length < (b :: tl).length := by
      simp only [List.length_drop, List.length_cons]; omega
    exact ⟨hs.1, hd, by omega⟩
  · have hd := DecodeRune_of_not_wellFormed b tl h
    refine ⟨hd, ?_, fun fuel rpos ix => ?_⟩
    · rw [runes_cons, hd]
      rfl
    · rw [indexLoop_step, hd]
      have hne : ¬ (RuneError = 10) := by decide
      by_cases hix : ix.2 = []
      · rw [if_pos (Or.inl hix), if_pos hix]
        rfl
      · rw [if_neg (by simp [hix, hne]), if_neg hix]
        rfl

/-- Witness of C15: the buffer `[0xFF, 0x61]` starts with an invalid byte; it is
decoded as one `RuneError` rune of width one, and four units of fuel give the
same index as two. -/
theorem indexScan_terminates_witness :
    (([0xFF, 0x61] : List Nat).length ≤ 4 ∧ wellFormedWidth [0xFF, 0x61] = 0) ∧
      indexLoop 4 [0xFF, 0x61] 0 ([], []) =
        indexLoop ([0xFF, 0x61] : List Nat).length [0xFF, 0x61] 0 ([], []) ∧
      DecodeRune [0xFF, 0x61] = (RuneError, 1) ∧
      runes [0xFF, 0x61] = RuneError :: runes [0x61] :=
  ⟨⟨by decide, by decide⟩,
    indexScan_terminates.1 [0xFF, 0x61] 0 ([], []) 4 (by decide),
    (indexScan_terminates.2.2 0xFF [0x61] (by decide)).1,
    (indexScan_terminates.2.2 0xFF [0x61] (by decide)).2.1⟩

/-! ## The range of the line lookup -/

/-- For a non-empty buffer and an operation starting at rune offset 2 or more,
the line computed by the lookup is a valid index of `indents`. -/
theorem lookupLine_in_range {σ : Type} (eng : Engine σ) (e : σ) (dst : List Nat) (b : Nat)
    (tl : List Nat) (s : Int) (hs : 2 ≤ s) :
    0 ≤ lookupLine (builtIndex eng e dst (b :: tl)).1 s ∧
      lookupLine (builtIndex eng e dst (b :: tl)).1 s
        < ((builtIndex eng e dst (b :: tl)).2.length : Int) := by
  have hhead := builtIndex_head eng e dst b tl
  have hst : (builtIndex eng e dst (b :: tl)).1.length = (builtIndex eng e dst (b :: tl)).2.length ∧
      (builtIndex eng e dst (b :: tl)).1.Pairwise (fun u v => u < v) := by
    rw [builtIndex_eq]
    obtain ⟨xs, ys, he, hl, _, hp⟩ := indexLoop_struct (b :: tl).length (b :: tl) 0 ([], [])
    rw [he]
    exact ⟨by simpa using hl, by simpa using hp⟩
  obtain ⟨hle, _, hhi⟩ := SearchInts_spec (builtIndex eng e dst (b :: tl)).1 s hst.2
  generalize (builtIndex eng e dst (b :: tl)).1 = ls at *
  generalize (builtIndex eng e dst (b :: tl)).2 = ind at *
  cases ls with
  | nil => simp at hhead
  | cons a rest =>
    simp only [List.head?_cons, Option.some.injEq] at hhead
    subst hhead
    have hpos : 1 ≤ SearchInts (1 :: rest) s := by
      by_contra hc
      have h0 : SearchInts (1 :: rest) s = 0 := by omega
      have := hhi 0 (by omega) (by simp)
      simp at this
      omega
    unfold lookupLine
    constructor
    · omega
    · rw [← hst.1]
      omega

/-- C14 (the code differs): on `"foo"` the index is `([1], [0])`; for an operation
starting at rune 0 (or 1), within `0 <= s <= 3`, `sort.SearchInts(...) - 1` is
-1, the slice index `indents[-1]` is out of range and the wrapped `Replace`
panics. -/
theorem lookupLine_before_first_start :
    builtIndex copyEngine () [] [102, 111, 111] = ([1], [0]) ∧
      lookupLine [1] 0 = -1 ∧ lookupLine [1] 1 = -1 ∧
      sliceIndex [0] (lookupLine [1] 0) = none ∧
      (quotedOp (fun v _ _ => (v, none)) ⟨0, 3, fun _ => ("bar", none)⟩).Replace [1] [0] "foo"
        = Outcome.panic := by
  decide

end Yamled
